import Mathlib

/-!
Verification of the Farkle scoring and round-progression core (`src/lib.rs`).

Die values (`i16` in the source) are modelled as `Int`, multiplicities as
`Nat`.  The source builds a `HashMap` of die counts and then iterates over
its entries; a Rust `HashMap` iterates in an unspecified order, so every
function of the source that loops over the map entries is embedded twice:
an `Aux` version taking the iteration order (the list of distinct keys) as
an explicit argument, and the plain version instantiated with the canonical
key list `mapKeys` (the distinct values in order of appearance).  Theorems
about iteration-order independence quantify over all permutations of the
key list.

`get_score` indexes `keep_repeats(dice)[0]`, which panics in Rust when the
vector is empty; the embedding returns `Option Int`, with `none` modelling
that panic and `some` a normal return.

`turn` draws random dice and reads the kept selection and the banking
decision from the console; those collaborators are outside the core, so the
round loop is embedded as a function of the trace of turn outcomes
`(turn score, kept count, bank decision)` it consumes, mirroring exactly
what `round` in the source does with the values `turn` and `keep_score`
return.  `none` models the (unreachable in a real run) exhaustion of the
trace.
-/

namespace Farkle

open List

/-- `count_dice` (src/lib.rs lines 21-28) viewed pointwise: the multiplicity
of die value `v` in `dice`.  The source returns the whole value-to-count
`HashMap`; the map sends `v` to the number of occurrences of `v`. -/
def count_dice (dice : List Int) (v : Int) : Nat :=
  dice.count v

/-- The distinct keys of the `HashMap` built by `count_dice`, in a canonical
order.  The real map iterates in an unspecified order; order-dependence is
analysed through the `Aux` functions below. -/
def mapKeys (dice : List Int) : List Int :=
  dice.dedup

/-- `is_three_pair` (src/lib.rs lines 46-55) with an explicit iteration
order `ks` for the count map: the number of entries with count exactly 2
must be 3. -/
def is_three_pairAux (ks dice : List Int) : Bool :=
  (ks.countP fun v => count_dice dice v == 2) == 3

/-- `is_three_pair` (src/lib.rs lines 46-55). -/
def is_three_pair (dice : List Int) : Bool :=
  is_three_pairAux (mapKeys dice) dice

/-- `is_straight` (src/lib.rs lines 70-77): every value 1..=6 occurs. -/
def is_straight (dice : List Int) : Bool :=
  [1, 2, 3, 4, 5, 6].all fun i => dice.contains i

/-- `is_of_a_kind` (src/lib.rs lines 104-113) with an explicit iteration
order: some entry has count at least `num`. -/
def is_of_a_kindAux (ks : List Int) (num : Nat) (dice : List Int) : Bool :=
  ks.any fun v => decide (num ≤ count_dice dice v)

/-- `is_of_a_kind` (src/lib.rs lines 104-113). -/
def is_of_a_kind (num : Nat) (dice : List Int) : Bool :=
  is_of_a_kindAux (mapKeys dice) num dice

/-- `is_two_triplets` (src/lib.rs lines 129-138) with an explicit iteration
order: the number of entries with count at least 3 must be 2. -/
def is_two_tripletsAux (ks dice : List Int) : Bool :=
  (ks.countP fun v => decide (3 ≤ count_dice dice v)) == 2

/-- `is_two_triplets` (src/lib.rs lines 129-138). -/
def is_two_triplets (dice : List Int) : Bool :=
  is_two_tripletsAux (mapKeys dice) dice

/-- `strip_repeats` (src/lib.rs lines 162-173) with an explicit iteration
order: for each map entry `(die, count)` with `count < 3`, push `count`
copies of `die`. -/
def strip_repeatsAux (ks dice : List Int) : List Int :=
  ks.flatMap fun v =>
    if count_dice dice v < 3 then List.replicate (count_dice dice v) v else []

/-- `strip_repeats` (src/lib.rs lines 162-173). -/
def strip_repeats (dice : List Int) : List Int :=
  strip_repeatsAux (mapKeys dice) dice

/-- `keep_repeats` (src/lib.rs lines 197-208) with an explicit iteration
order: for each map entry `(die, count)` with `count >= 3`, push `count`
copies of `die`. -/
def keep_repeatsAux (ks dice : List Int) : List Int :=
  ks.flatMap fun v =>
    if 3 ≤ count_dice dice v then List.replicate (count_dice dice v) v else []

/-- `keep_repeats` (src/lib.rs lines 197-208). -/
def keep_repeats (dice : List Int) : List Int :=
  keep_repeatsAux (mapKeys dice) dice

/-- The final loop of `get_score` (src/lib.rs lines 280-287): fold over the
stripped dice, adding 100 for each 1 and 50 for each 5. -/
def score_ones_and_fives (l : List Int) : Int :=
  l.foldl
    (fun score die =>
      if die == 1 then score + 100 else if die == 5 then score + 50 else score)
    0

/-- `get_score` (src/lib.rs lines 249-292) with explicit iteration orders
for each of the seven `HashMap`s its callees build (one per call of
`is_two_triplets`, `is_three_pair`, `is_of_a_kind` at 6, 5, 4 and 3,
`keep_repeats` and `strip_repeats`).  `none` models the
`keep_repeats(dice)[0]` panic on an empty vector. -/
def get_scoreAux (ktt ktp k6 k5 k4 k3 kk ksl dice : List Int) : Option Int :=
  if is_two_tripletsAux ktt dice then some 2500
  else if is_three_pairAux ktp dice then some 1500
  else if is_straight dice then some 1500
  else if is_of_a_kindAux k6 6 dice then some 5000
  else
    (if is_of_a_kindAux k5 5 dice then some 3000
     else if is_of_a_kindAux k4 4 dice then some 2000
     else if is_of_a_kindAux k3 3 dice then
       match keep_repeatsAux kk dice with
       | [] => none
       | d :: _ => some (if d == 1 then 1000 else d * 100)
     else some 0).map
      fun score => score + score_ones_and_fives (strip_repeatsAux ksl dice)

/-- `get_score` (src/lib.rs lines 249-292), canonical iteration order. -/
def get_score (dice : List Int) : Option Int :=
  get_scoreAux (mapKeys dice) (mapKeys dice) (mapKeys dice) (mapKeys dice)
    (mapKeys dice) (mapKeys dice) (mapKeys dice) (mapKeys dice) dice

/-- `TOTAL_DICE` (src/lib.rs line 5). -/
def TOTAL_DICE : Int := 6

/-- What `round` observes of one call of `turn` and the following banking
prompt: the turn score, the number of kept dice, and the `keep_score`
answer. -/
structure TurnOutcome where
  score : Int
  kept : Int
  bank : Bool

/-- The loop of `round` (src/lib.rs lines 404-431) over a trace of turn
outcomes, carrying the accumulated `round_score` and the pool size
`num_dice`.  A turn with `kept = 0` or `score = 0` breaks the loop and the
function returns 0; otherwise the pool is recomputed, the score is
accumulated, and a positive banking answer returns the accumulated score. -/
def round_loop : List TurnOutcome → Int → Int → Option Int
  | [], _, _ => none
  | t :: rest, round_score, num_dice =>
    if t.kept = 0 ∨ t.score = 0 then some 0
    else
      let nd := if num_dice - t.kept ≤ 0 then TOTAL_DICE else num_dice - t.kept
      let rs := round_score + t.score
      if t.bank then some rs else round_loop rest rs nd

/-- `round` (src/lib.rs lines 404-431): the loop started with round score 0
and pool size `TOTAL_DICE`. -/
def round (trace : List TurnOutcome) : Option Int :=
  round_loop trace 0 TOTAL_DICE

/-- Spec-side value of a single leftover die (section 4.3 step 8 of the
spec): 1 contributes 100, 5 contributes 50, anything else 0. -/
def die_value_score (d : Int) : Int :=
  if d = 1 then 100 else if d = 5 then 50 else 0

/-- The leftover fold equals the sum of the per-die contributions. -/
theorem score_ones_and_fives_eq (l : List Int) :
    score_ones_and_fives l = (l.map die_value_score).sum := by
  suffices h : ∀ s : Int,
      l.foldl
        (fun score die =>
          if die == 1 then score + 100
          else if die == 5 then score + 50 else score)
        s = s + (l.map die_value_score).sum by
    simpa [score_ones_and_fives] using h 0
  induction l with
  | nil => intro s; simp
  | cons d l ih =>
    intro s
    simp only [List.foldl_cons, List.map_cons, List.sum_cons, ih]
    by_cases h1 : d = 1
    · simp [beq_iff_eq, h1, die_value_score]; ring
    · by_cases h5 : d = 5
      · simp [beq_iff_eq, h1, h5, die_value_score]; ring
      · simp [beq_iff_eq, h1, h5, die_value_score]

/-- Each single die contributes a non-negative amount. -/
theorem die_value_score_nonneg (d : Int) : 0 ≤ die_value_score d := by
  unfold die_value_score
  split
  · norm_num
  · split <;> norm_num

/-- The leftover score is non-negative. -/
theorem score_ones_and_fives_nonneg (l : List Int) :
    0 ≤ score_ones_and_fives l := by
  rw [score_ones_and_fives_eq]
  apply List.sum_nonneg
  intro x hx
  obtain ⟨d, -, rfl⟩ := List.mem_map.mp hx
  exact die_value_score_nonneg d

/-- `is_of_a_kind` with explicit key order, characterised by membership. -/
theorem is_of_a_kindAux_eq_true {ks : List Int} {num : Nat} {dice : List Int} :
    is_of_a_kindAux ks num dice = true ↔
      ∃ v ∈ ks, num ≤ count_dice dice v := by
  simp [is_of_a_kindAux]

/-- The three-pair test does not depend on the iteration order of the count
map. -/
theorem is_three_pairAux_perm {ks1 ks2 dice : List Int} (h : ks1 ~ ks2) :
    is_three_pairAux ks1 dice = is_three_pairAux ks2 dice := by
  simp [is_three_pairAux, h.countP_eq]

/-- The two-triplet test does not depend on the iteration order of the count
map. -/
theorem is_two_tripletsAux_perm {ks1 ks2 dice : List Int} (h : ks1 ~ ks2) :
    is_two_tripletsAux ks1 dice = is_two_tripletsAux ks2 dice := by
  simp [is_two_tripletsAux, h.countP_eq]

/-- The of-a-kind test does not depend on the iteration order of the count
map. -/
theorem is_of_a_kindAux_perm (num : Nat) {ks1 ks2 dice : List Int}
    (h : ks1 ~ ks2) :
    is_of_a_kindAux ks1 num dice = is_of_a_kindAux ks2 num dice := by
  have key : ∀ a b : Bool, (a = true ↔ b = true) → a = b := by decide
  apply key
  rw [is_of_a_kindAux_eq_true, is_of_a_kindAux_eq_true]
  constructor
  · rintro ⟨v, hv, hc⟩; exact ⟨v, h.mem_iff.mp hv, hc⟩
  · rintro ⟨v, hv, hc⟩; exact ⟨v, h.mem_iff.mpr hv, hc⟩

/-- Permuting the key order permutes the result of `strip_repeats`. -/
theorem strip_repeatsAux_perm {ks1 ks2 : List Int} (dice : List Int)
    (h : ks1 ~ ks2) :
    strip_repeatsAux ks1 dice ~ strip_repeatsAux ks2 dice :=
  h.flatMap_right _

/-- A member of `keep_repeats` is a key whose count is at least 3. -/
theorem mem_keep_repeatsAux {ks dice : List Int} {d : Int}
    (h : d ∈ keep_repeatsAux ks dice) : d ∈ ks ∧ 3 ≤ count_dice dice d := by
  unfold keep_repeatsAux at h
  obtain ⟨v, hv, hd⟩ := List.mem_flatMap.mp h
  by_cases hc : 3 ≤ count_dice dice v
  · simp only [if_pos hc] at hd
    obtain ⟨-, rfl⟩ := List.mem_replicate.mp hd
    exact ⟨hv, hc⟩
  · simp [hc] at hd

/-- Any value with at least two occurrences appears among the stripped or
kept dice of a key list exactly when the key list says so: multiplicity of
`u` in `strip_repeatsAux ks dice`, for a duplicate-free key list. -/
theorem count_strip_repeatsAux (ks dice : List Int) (hnd : ks.Nodup)
    (u : Int) :
    (strip_repeatsAux ks dice).count u =
      if u ∈ ks ∧ count_dice dice u < 3 then count_dice dice u else 0 := by
  induction ks with
  | nil => simp [strip_repeatsAux]
  | cons x ks ih =>
    rw [List.nodup_cons] at hnd
    obtain ⟨hx, hnd2⟩ := hnd
    have step :
        strip_repeatsAux (x :: ks) dice =
          (if count_dice dice x < 3
            then List.replicate (count_dice dice x) x else []) ++
            strip_repeatsAux ks dice := by
      simp [strip_repeatsAux]
    rw [step, List.count_append, ih hnd2]
    by_cases hux : u = x
    · subst hux
      have hks : u ∉ ks := hx
      by_cases hcu : count_dice dice u < 3
      · simp [hcu, hks, List.count_replicate]
      · simp [hcu, hks]
    · have hrep :
          (if count_dice dice x < 3
            then List.replicate (count_dice dice x) x else []).count u = 0 := by
        split
        · rw [List.count_replicate]
          simp [beq_iff_eq]
          exact fun e => absurd e.symm hux
        · simp
      rw [hrep]
      by_cases hmem : u ∈ ks <;> simp [hmem, hux]

/-- A list containing two distinct elements has length at least 2. -/
theorem two_le_length_of_mem (l : List Int) :
    ∀ v w : Int, v ∈ l → w ∈ l → v ≠ w → 2 ≤ l.length := by
  induction l with
  | nil => intro v w hv _ _; simp at hv
  | cons x xs ih =>
    intro v w hv hw hvw
    rcases List.mem_cons.mp hv with rfl | hv2
    · rcases List.mem_cons.mp hw with rfl | hw2
      · exact absurd rfl hvw
      · have : 0 < xs.length := List.length_pos.mpr (List.ne_nil_of_mem hw2)
        simp only [List.length_cons]; omega
    · have : 0 < xs.length := List.length_pos.mpr (List.ne_nil_of_mem hv2)
      simp only [List.length_cons]; omega

/-- Two distinct elements of a list satisfying `p` force `countP p` to be at
least 2. -/
theorem two_le_countP_of_two {l : List Int} {p : Int → Bool} {v w : Int}
    (hv : v ∈ l) (hw : w ∈ l) (hvw : v ≠ w) (hpv : p v = true)
    (hpw : p w = true) : 2 ≤ l.countP p := by
  rw [List.countP_eq_length_filter]
  exact two_le_length_of_mem (l.filter p) v w
    (List.mem_filter.mpr ⟨hv, hpv⟩) (List.mem_filter.mpr ⟨hw, hpw⟩) hvw

/-- A duplicate-free list of values that each occur at least 3 times in
`dice` can have at most a third of `dice.length` elements. -/
theorem three_mul_le_length {ts : List Int} :
    ∀ {dice : List Int}, ts.Nodup → (∀ v ∈ ts, 3 ≤ count_dice dice v) →
      3 * ts.length ≤ dice.length := by
  induction ts with
  | nil => intro dice _ _; simp
  | cons v ts ih =>
    intro dice hnd h
    rw [List.nodup_cons] at hnd
    obtain ⟨hv, hnd2⟩ := hnd
    have hcv : 3 ≤ count_dice dice v := h v (List.mem_cons_self v ts)
    have hlen : dice.length =
        (dice.filter fun w => w == v).length +
          (dice.filter fun w => !(w == v)).length :=
      List.length_eq_length_filter_add _
    have hcnt : (dice.filter fun w => w == v).length = count_dice dice v := by
      rw [count_dice, List.count_eq_countP, List.countP_eq_length_filter]
    have hrest : ∀ w ∈ ts, 3 ≤ count_dice (dice.filter fun x => !(x == v)) w := by
      intro w hw
      have hne : w ≠ v := fun e => hv (e ▸ hw)
      have heq : count_dice (dice.filter fun x => !(x == v)) w =
          count_dice dice w := by
        rw [count_dice, count_dice]
        apply List.count_filter
        simp [beq_iff_eq, hne]
      rw [heq]
      exact h w (List.mem_cons_of_mem v hw)
    have hih := ih hnd2 hrest
    simp only [List.length_cons]
    omega

/-- With at most six dice and the two-triplet test failing, there is at most
one die value of multiplicity at least 3. -/
theorem triple_value_unique {dice : List Int} (hlen : dice.length ≤ 6)
    (htt : is_two_triplets dice = false) {v w : Int}
    (hv : 3 ≤ count_dice dice v) (hw : 3 ≤ count_dice dice w) : v = w := by
  by_contra hne
  have hvd : v ∈ dice := List.count_pos_iff.mp (Nat.lt_of_lt_of_le (by norm_num) hv)
  have hwd : w ∈ dice := List.count_pos_iff.mp (Nat.lt_of_lt_of_le (by norm_num) hw)
  have hvk : v ∈ mapKeys dice := by rw [mapKeys, List.mem_dedup]; exact hvd
  have hwk : w ∈ mapKeys dice := by rw [mapKeys, List.mem_dedup]; exact hwd
  have h2 : 2 ≤ (mapKeys dice).countP fun u => decide (3 ≤ count_dice dice u) :=
    two_le_countP_of_two hvk hwk hne (by simpa using hv) (by simpa using hw)
  have h3 : 3 * ((mapKeys dice).countP
      fun u => decide (3 ≤ count_dice dice u)) ≤ dice.length := by
    rw [List.countP_eq_length_filter]
    apply three_mul_le_length ((List.nodup_dedup dice).filter _)
    intro u hu
    simpa using List.of_mem_filter hu
  have hcp : ((mapKeys dice).countP
      fun u => decide (3 ≤ count_dice dice u)) = 2 := by omega
  have : is_two_triplets dice = true := by
    simp [is_two_triplets, is_two_tripletsAux, hcp]
  rw [htt] at this
  exact Bool.false_ne_true this

/-- When exactly one value has multiplicity at least 3, `keep_repeats` is
that value's block of copies, whatever the key iteration order. -/
theorem keep_repeatsAux_eq_replicate {dice : List Int} {v : Int} :
    ∀ {ks : List Int}, ks.Nodup → v ∈ ks → 3 ≤ count_dice dice v →
      (∀ w ∈ ks, 3 ≤ count_dice dice w → w = v) →
      keep_repeatsAux ks dice = List.replicate (count_dice dice v) v := by
  intro ks
  induction ks with
  | nil => intro _ hv _ _; simp at hv
  | cons x ks ih =>
    intro hnd hvks hv huniq
    rw [List.nodup_cons] at hnd
    obtain ⟨hx, hnd2⟩ := hnd
    have step :
        keep_repeatsAux (x :: ks) dice =
          (if 3 ≤ count_dice dice x
            then List.replicate (count_dice dice x) x else []) ++
            keep_repeatsAux ks dice := by
      simp [keep_repeatsAux]
    by_cases hcx : 3 ≤ count_dice dice x
    · have hxv : x = v := huniq x (List.mem_cons_self x ks) hcx
      subst hxv
      have hrest : keep_repeatsAux ks dice = [] := by
        rw [keep_repeatsAux, List.flatMap_eq_nil_iff]
        intro w hw
        have hwn : ¬3 ≤ count_dice dice w := fun hc =>
          hx (huniq w (List.mem_cons_of_mem x hw) hc ▸ hw)
        simp [hwn]
      rw [step, hrest, List.append_nil, if_pos hcx]
    · have hvks2 : v ∈ ks := by
        rcases List.mem_cons.mp hvks with rfl | h2
        · exact absurd hv hcx
        · exact h2
      have hrec := ih hnd2 hvks2 hv
        (fun w hw hc => huniq w (List.mem_cons_of_mem x hw) hc)
      rw [step, if_neg hcx, List.nil_append, hrec]

/-- A duplicate-free list whose members all equal `v`, and which contains
`v`, is exactly `[v]`. -/
theorem nodup_all_eq {l : List Int} {v : Int} (hnd : l.Nodup)
    (hall : ∀ w ∈ l, w = v) (hv : v ∈ l) : l = [v] := by
  cases l with
  | nil => simp at hv
  | cons x xs =>
    have hx : x = v := hall x (List.mem_cons_self x xs)
    subst hx
    cases xs with
    | nil => rfl
    | cons y ys =>
      have hy : y = x := hall y (by simp)
      rw [List.nodup_cons] at hnd
      exact absurd (hy ▸ List.mem_cons_self y ys) hnd.1

/-- Claim C1: `get_score` reproduces the spec's score-table fixtures
exactly. -/
theorem get_score_score_table :
    get_score [1, 1, 1, 2, 2, 2] = some 2500 ∧
    get_score [1, 2, 3, 4, 5, 6] = some 1500 ∧
    get_score [1, 1, 1, 1, 1, 1] = some 5000 ∧
    get_score [1, 1, 1, 1, 1] = some 3000 ∧
    get_score [1, 1, 1] = some 1000 ∧
    get_score [2, 2, 2] = some 200 ∧
    get_score [1, 1, 1, 5, 5] = some 1100 ∧
    get_score [1, 1, 5, 5, 5] = some 700 ∧
    get_score [2, 3, 4, 6] = some 0 := by
  decide

/-- Claim C4 counterexample: on the code, `[1,1,2,2,3,3]` has no value with
multiplicity at least 3, so `is_two_triplets` returns `false` on it (it is a
three-pair set, as the code's own doctests assert). -/
theorem is_two_triplets_spec_fixture_false :
    is_two_triplets [1, 1, 2, 2, 3, 3] = false ∧
    is_three_pair [1, 1, 2, 2, 3, 3] = true := by
  decide

/-- Claim C4 (amended): `is_two_triplets` is true on the genuine two-triplet
set `[1,1,1,2,2,2]`; the spec's fixture `[1,1,2,2,3,3]` is a three-pair set
on which `is_two_triplets` is false. -/
theorem is_two_triplets_fixture :
    is_two_triplets [1, 1, 1, 2, 2, 2] = true := by
  decide

/-- Claim C5 counterexample: out-of-domain inputs are not rejected.  A die
value 7 (outside 1..=6) and a 7-dice set are both scored normally; no
failure (`none` is the embedding's only failure channel) occurs. -/
theorem get_score_no_invalid_input_failure :
    get_score [7, 7, 7] ≠ none ∧
    get_score [1, 1, 1, 1, 1, 1, 1] ≠ none := by
  decide

/-- Claim C5 (amended): the core performs no domain validation; out-of-domain
inputs are scored by the same algorithm rather than failing fast: a triple
of 7s scores 700 and seven 1s score 5000 (as a six-or-more-of-a-kind). -/
theorem get_score_out_of_domain_scores :
    get_score [7, 7, 7] = some 700 ∧
    get_score [1, 1, 1, 1, 1, 1, 1] = some 5000 := by
  decide

/-- Claim C8 counterexample: `strip_repeats` does not return the selected
dice in their original input order.  In `[2, 3, 2]` every value has
multiplicity below 3, so the claimed result is the whole input `[2, 3, 2]`;
the code instead groups equal values by map entry, and under either of the
two possible iteration orders of the two keys the result differs from
`[2, 3, 2]`. -/
theorem strip_repeats_not_input_order :
    [2, 3, 2].filter (fun d => decide (count_dice [2, 3, 2] d < 3)) =
      [2, 3, 2] ∧
    strip_repeatsAux [2, 3] [2, 3, 2] ≠ [2, 3, 2] ∧
    strip_repeatsAux [3, 2] [2, 3, 2] ≠ [2, 3, 2] ∧
    strip_repeats [2, 3, 2] ≠ [2, 3, 2] := by
  decide

/-- Claim C8 (amended): for every dice set and every iteration order of the
count map, `strip_repeats` returns a permutation of the sub-sequence of the
input consisting of the dice whose value has multiplicity below 3 — the
multiset is exactly as claimed, but the dice come out grouped by value in
map-iteration order, not in their original input order. -/
theorem strip_repeats_multiset (dice ks : List Int) (h : ks ~ mapKeys dice) :
    strip_repeatsAux ks dice ~
      dice.filter fun d => decide (count_dice dice d < 3) := by
  rw [List.perm_iff_count]
  intro u
  have hnd : ks.Nodup := h.nodup_iff.mpr (List.nodup_dedup dice)
  rw [count_strip_repeatsAux ks dice hnd u]
  by_cases hcu : count_dice dice u < 3
  · by_cases hmem : u ∈ ks
    · rw [List.count_filter (by simpa using hcu), if_pos ⟨hmem, hcu⟩]
      rfl
    · have hud : u ∉ dice := by
        intro hud
        exact hmem (h.mem_iff.mpr (by rw [mapKeys, List.mem_dedup]; exact hud))
      have h0 : count_dice dice u = 0 := List.count_eq_zero.mpr hud
      rw [List.count_filter (by simpa using hcu)]
      have hno : ¬(u ∈ ks ∧ count_dice dice u < 3) := by tauto
      rw [if_neg hno]
      exact h0.symm
  · have h0 :
        List.count u (dice.filter fun d => decide (count_dice dice d < 3)) = 0 := by
      apply List.count_eq_zero.mpr
      intro hmem
      have hp := List.of_mem_filter hmem
      simp at hp
      exact hcu hp
    rw [h0]
    simp [hcu]

/-- Witness for the amended C8: concrete input `[2, 3, 2]` under a reversed
key iteration order. -/
theorem strip_repeats_multiset_witness :
    strip_repeatsAux ((mapKeys [2, 3, 2]).reverse) [2, 3, 2] ~
      [2, 3, 2].filter fun d => decide (count_dice [2, 3, 2] d < 3) :=
  strip_repeats_multiset [2, 3, 2] ((mapKeys [2, 3, 2]).reverse) (by decide)

/-- The loop of `round`: any returned value arises either from a busting
turn (value 0) or from banking (the accumulator plus all completed turn
scores). -/
theorem round_loop_spec (trace : List TurnOutcome) :
    ∀ acc pool r : Int, round_loop trace acc pool = some r →
      (∃ pre t post, trace = pre ++ t :: post ∧
        (∀ u ∈ pre, u.kept ≠ 0 ∧ u.score ≠ 0 ∧ u.bank = false) ∧
        (t.kept = 0 ∨ t.score = 0) ∧ r = 0) ∨
      (∃ pre t post, trace = pre ++ t :: post ∧
        (∀ u ∈ pre, u.kept ≠ 0 ∧ u.score ≠ 0 ∧ u.bank = false) ∧
        t.kept ≠ 0 ∧ t.score ≠ 0 ∧ t.bank = true ∧
        r = acc + (pre.map TurnOutcome.score).sum + t.score) := by
  induction trace with
  | nil => intro acc pool r h; simp [round_loop] at h
  | cons t rest ih =>
    intro acc pool r h
    by_cases hb : t.kept = 0 ∨ t.score = 0
    · simp only [round_loop, if_pos hb] at h
      left
      exact ⟨[], t, rest, rfl, by simp, hb, (Option.some_inj.mp h).symm⟩
    · simp only [round_loop, if_neg hb] at h
      push_neg at hb
      obtain ⟨hk, hs⟩ := hb
      by_cases hbank : t.bank = true
      · right
        rw [if_pos hbank] at h
        refine ⟨[], t, rest, rfl, by simp, hk, hs, hbank, ?_⟩
        have := Option.some_inj.mp h
        simp only [List.map_nil, List.sum_nil]
        omega
      · simp only [Bool.not_eq_true] at hbank
        rw [hbank] at h
        simp only [Bool.false_eq_true, if_neg, ite_false] at h
        rcases ih _ _ _ h with
          ⟨pre, u, post, heq, hpre, hbu, hr⟩ |
          ⟨pre, u, post, heq, hpre, hku, hsu, hbku, hr⟩
        · left
          refine ⟨t :: pre, u, post, by rw [heq, List.cons_append], ?_, hbu, hr⟩
          intro x hx
          rcases List.mem_cons.mp hx with rfl | hx2
          · exact ⟨hk, hs, hbank⟩
          · exact hpre x hx2
        · right
          refine ⟨t :: pre, u, post, by rw [heq, List.cons_append], ?_, hku, hsu, hbku, ?_⟩
          · intro x hx
            rcases List.mem_cons.mp hx with rfl | hx2
            · exact ⟨hk, hs, hbank⟩
            · exact hpre x hx2
          · simp only [List.map_cons, List.sum_cons] at hr ⊢
            omega

/-- Claim C6: every terminating execution of `round` either ends on a
busting turn (kept count 0 or turn score 0) and returns exactly 0 —
whatever turn scores were accumulated earlier — or ends with the player
banking and returns exactly the sum of the scores of all completed turns;
never a partial sum on bust. -/
theorem round_bust_or_bank (trace : List TurnOutcome) (r : Int)
    (h : round trace = some r) :
    (∃ pre t post, trace = pre ++ t :: post ∧
      (∀ u ∈ pre, u.kept ≠ 0 ∧ u.score ≠ 0 ∧ u.bank = false) ∧
      (t.kept = 0 ∨ t.score = 0) ∧ r = 0) ∨
    (∃ pre t post, trace = pre ++ t :: post ∧
      (∀ u ∈ pre, u.kept ≠ 0 ∧ u.score ≠ 0 ∧ u.bank = false) ∧
      t.kept ≠ 0 ∧ t.score ≠ 0 ∧ t.bank = true ∧
      r = (pre.map TurnOutcome.score).sum + t.score) := by
  rcases round_loop_spec trace 0 TOTAL_DICE r h with
    ⟨pre, t, post, heq, hpre, hb, hr⟩ |
    ⟨pre, t, post, heq, hpre, hk, hs, hbk, hr⟩
  · exact Or.inl ⟨pre, t, post, heq, hpre, hb, hr⟩
  · exact Or.inr ⟨pre, t, post, heq, hpre, hk, hs, hbk, by omega⟩

/-- Witness for C6 on a concrete trace: a 100-point turn, then banking after
a 200-point turn; the round returns 300 = 100 + 200. -/
theorem round_bust_or_bank_witness :
    (∃ pre t post,
      ([⟨100, 2, false⟩, ⟨200, 4, true⟩] : List TurnOutcome) =
        pre ++ t :: post ∧
      (∀ u ∈ pre, u.kept ≠ 0 ∧ u.score ≠ 0 ∧ u.bank = false) ∧
      (t.kept = 0 ∨ t.score = 0) ∧ (300 : Int) = 0) ∨
    (∃ pre t post,
      ([⟨100, 2, false⟩, ⟨200, 4, true⟩] : List TurnOutcome) =
        pre ++ t :: post ∧
      (∀ u ∈ pre, u.kept ≠ 0 ∧ u.score ≠ 0 ∧ u.bank = false) ∧
      t.kept ≠ 0 ∧ t.score ≠ 0 ∧ t.bank = true ∧
      (300 : Int) = (pre.map TurnOutcome.score).sum + t.score) :=
  round_bust_or_bank [⟨100, 2, false⟩, ⟨200, 4, true⟩] 300 (by decide)

/-- Claim C7: after every non-busting, non-banking turn, `round` continues
with the next pool size `6` when `pool − kept ≤ 0` and `pool − kept`
otherwise; in particular, keeping the whole (positive) pool with a positive
score continues with a full pool of exactly 6 (hot dice). -/
theorem round_next_pool (t : TurnOutcome) (rest : List TurnOutcome)
    (acc pool : Int) :
    (t.kept ≠ 0 → t.score ≠ 0 → t.bank = false →
      round_loop (t :: rest) acc pool =
        round_loop rest (acc + t.score)
          (if pool - t.kept ≤ 0 then 6 else pool - t.kept)) ∧
    (t.kept = pool → 0 < t.score → 0 < pool → t.bank = false →
      round_loop (t :: rest) acc pool = round_loop rest (acc + t.score) 6) := by
  constructor
  · intro hk hs hbank
    have hnb : ¬(t.kept = 0 ∨ t.score = 0) := by tauto
    simp only [round_loop, if_neg hnb, hbank, TOTAL_DICE]
    simp
  · intro hkp hs hp hbank
    have hk : t.kept ≠ 0 := by omega
    have hs2 : t.score ≠ 0 := by omega
    have hnb : ¬(t.kept = 0 ∨ t.score = 0) := by tauto
    have h0 : pool - t.kept ≤ 0 := by omega
    simp only [round_loop, if_neg hnb, hbank, TOTAL_DICE, if_pos h0]
    simp

/-- Witness for C7: a concrete non-busting turn continuing the loop, and a
concrete hot-dice turn (kept the whole pool of 3) resetting the pool to 6. -/
theorem round_next_pool_witness :
    round_loop [⟨100, 2, false⟩] 0 6 =
      round_loop [] ((0 : Int) + 100)
        (if (6 : Int) - 2 ≤ 0 then 6 else 6 - 2) ∧
    round_loop [⟨100, 3, false⟩] 0 3 = round_loop [] ((0 : Int) + 100) 6 :=
  ⟨(round_next_pool ⟨100, 2, false⟩ [] 0 6).1 (by decide) (by decide) rfl,
   (round_next_pool ⟨100, 3, false⟩ [] 0 3).2 rfl (by decide) (by decide) rfl⟩

/-- When exactly one value has multiplicity at least 3, the canonical
`keep_repeats` is that value's block of copies. -/
theorem keep_repeats_replicate_of_unique {dice : List Int} {v : Int}
    (hv : 3 ≤ count_dice dice v)
    (huniq : ∀ w, 3 ≤ count_dice dice w → w = v) :
    keep_repeats dice = List.replicate (count_dice dice v) v := by
  have hvmem : v ∈ mapKeys dice := by
    rw [mapKeys, List.mem_dedup]
    exact List.count_pos_iff.mp (Nat.lt_of_lt_of_le (by norm_num) hv)
  exact keep_repeatsAux_eq_replicate (List.nodup_dedup dice) hvmem hv
    (fun w _ hc => huniq w hc)

/-- Claim C10: whenever the three-of-a-kind test succeeds, `keep_repeats`
is non-empty, so the indexing `keep_repeats(dice)[0]` in the
three-of-a-kind branch of `get_score` cannot fail; moreover, for dice sets
of length at most 6 on which the two-triplet test failed, exactly one value
has multiplicity at least 3 and the first element of `keep_repeats` is that
value. -/
theorem keep_repeats_head (dice : List Int) :
    (is_of_a_kind 3 dice = true → keep_repeats dice ≠ []) ∧
    (dice.length ≤ 6 → is_two_triplets dice = false →
      is_of_a_kind 3 dice = true →
      ∃ v, 3 ≤ count_dice dice v ∧ (∀ w, 3 ≤ count_dice dice w → w = v) ∧
        (keep_repeats dice).head? = some v) := by
  constructor
  · intro h3 hnil
    obtain ⟨v, hvks, hc⟩ := is_of_a_kindAux_eq_true.mp h3
    have hvmem : v ∈ keep_repeats dice := by
      rw [keep_repeats, keep_repeatsAux]
      exact List.mem_flatMap_of_mem hvks
        (by rw [if_pos hc]; exact List.mem_replicate.mpr ⟨by omega, rfl⟩)
    rw [hnil] at hvmem
    simp at hvmem
  · intro hlen htt h3
    obtain ⟨v, hvks, hc⟩ := is_of_a_kindAux_eq_true.mp h3
    have huniq : ∀ w, 3 ≤ count_dice dice w → w = v :=
      fun w hw => triple_value_unique hlen htt hw hc
    refine ⟨v, hc, huniq, ?_⟩
    rw [keep_repeats_replicate_of_unique hc huniq]
    obtain ⟨n, hn⟩ : ∃ n, count_dice dice v = n + 1 :=
      ⟨count_dice dice v - 1, by omega⟩
    rw [hn, List.replicate_succ]
    rfl

/-- Witness for C10 at the concrete input `[4, 4, 4, 5]`. -/
theorem keep_repeats_head_witness :
    keep_repeats [4, 4, 4, 5] ≠ [] ∧
    ∃ v, 3 ≤ count_dice [4, 4, 4, 5] v ∧
      (∀ w, 3 ≤ count_dice [4, 4, 4, 5] w → w = v) ∧
      (keep_repeats [4, 4, 4, 5]).head? = some v :=
  ⟨(keep_repeats_head [4, 4, 4, 5]).1 (by decide),
   (keep_repeats_head [4, 4, 4, 5]).2 (by decide) (by decide) (by decide)⟩

/-- Claim C3: when the highest-precedence match is five-, four-, or
three-of-a-kind, `get_score` does not return the group score alone: it
returns the group score (3000, 2000, and for a triple of value `v` 1000 if
`v = 1` and `v * 100` otherwise) plus the leftover score of `strip_repeats`
of the original kept set, each leftover die contributing 100 for a 1, 50
for a 5 and 0 otherwise. -/
theorem get_score_group_plus_leftovers (dice : List Int) (v : Int) :
    (is_two_triplets dice = false → is_three_pair dice = false →
      is_straight dice = false → is_of_a_kind 6 dice = false →
      is_of_a_kind 5 dice = true →
      get_score dice =
        some (3000 + ((strip_repeats dice).map die_value_score).sum)) ∧
    (is_two_triplets dice = false → is_three_pair dice = false →
      is_straight dice = false → is_of_a_kind 6 dice = false →
      is_of_a_kind 5 dice = false → is_of_a_kind 4 dice = true →
      get_score dice =
        some (2000 + ((strip_repeats dice).map die_value_score).sum)) ∧
    (dice.length ≤ 6 → is_two_triplets dice = false →
      is_three_pair dice = false → is_straight dice = false →
      is_of_a_kind 6 dice = false → is_of_a_kind 5 dice = false →
      is_of_a_kind 4 dice = false → is_of_a_kind 3 dice = true →
      3 ≤ count_dice dice v →
      get_score dice =
        some ((if v = 1 then 1000 else v * 100) +
          ((strip_repeats dice).map die_value_score).sum)) := by
  refine ⟨?_, ?_, ?_⟩
  · intro htt htp hst h6 h5
    have httA : is_two_tripletsAux (mapKeys dice) dice = false := htt
    have htpA : is_three_pairAux (mapKeys dice) dice = false := htp
    have h6A : is_of_a_kindAux (mapKeys dice) 6 dice = false := h6
    have h5A : is_of_a_kindAux (mapKeys dice) 5 dice = true := h5
    unfold get_score get_scoreAux
    simp [httA, htpA, hst, h6A, h5A, strip_repeats, score_ones_and_fives_eq]
  · intro htt htp hst h6 h5 h4
    have httA : is_two_tripletsAux (mapKeys dice) dice = false := htt
    have htpA : is_three_pairAux (mapKeys dice) dice = false := htp
    have h6A : is_of_a_kindAux (mapKeys dice) 6 dice = false := h6
    have h5A : is_of_a_kindAux (mapKeys dice) 5 dice = false := h5
    have h4A : is_of_a_kindAux (mapKeys dice) 4 dice = true := h4
    unfold get_score get_scoreAux
    simp [httA, htpA, hst, h6A, h5A, h4A, strip_repeats, score_ones_and_fives_eq]
  · intro hlen htt htp hst h6 h5 h4 h3 hv
    have httA : is_two_tripletsAux (mapKeys dice) dice = false := htt
    have htpA : is_three_pairAux (mapKeys dice) dice = false := htp
    have h6A : is_of_a_kindAux (mapKeys dice) 6 dice = false := h6
    have h5A : is_of_a_kindAux (mapKeys dice) 5 dice = false := h5
    have h4A : is_of_a_kindAux (mapKeys dice) 4 dice = false := h4
    have h3A : is_of_a_kindAux (mapKeys dice) 3 dice = true := h3
    have huniq : ∀ w, 3 ≤ count_dice dice w → w = v :=
      fun w hw => triple_value_unique hlen htt hw hv
    have hkeepA : keep_repeatsAux (mapKeys dice) dice =
        List.replicate (count_dice dice v) v :=
      keep_repeats_replicate_of_unique hv huniq
    obtain ⟨n, hn⟩ : ∃ n, count_dice dice v = n + 1 :=
      ⟨count_dice dice v - 1, by omega⟩
    unfold get_score get_scoreAux
    rw [hkeepA, hn, List.replicate_succ]
    simp [httA, htpA, hst, h6A, h5A, h4A, h3A, beq_iff_eq, strip_repeats,
      score_ones_and_fives_eq]

/-- Witness for C3 at two concrete inputs: five 5s with a leftover 1
(3000 + 100), and a triple of 2s with leftover 1 and 5 (200 + 150). -/
theorem get_score_group_plus_leftovers_witness :
    (get_score [5, 5, 5, 5, 5, 1] =
      some (3000 +
        ((strip_repeats [5, 5, 5, 5, 5, 1]).map die_value_score).sum)) ∧
    get_score [2, 2, 2, 1, 5] =
      some ((if (2 : Int) = 1 then 1000 else 2 * 100) +
        ((strip_repeats [2, 2, 2, 1, 5]).map die_value_score).sum) :=
  ⟨(get_score_group_plus_leftovers [5, 5, 5, 5, 5, 1] 5).1 (by decide)
      (by decide) (by decide) (by decide) (by decide),
   (get_score_group_plus_leftovers [2, 2, 2, 1, 5] 2).2.2 (by decide)
    (by decide) (by decide) (by decide) (by decide) (by decide) (by decide)
    (by decide) (by decide)⟩

/-- Claim C2: the combination tests are applied in the fixed precedence
order two-triplets, three-pair, straight, six-, five-, four-,
three-of-a-kind, first match winning; in particular a six-dice set in which
some value has multiplicity 6 — which trivially also passes the
three-of-a-kind test — scores 5000 as six-of-a-kind, not as
three-of-a-kind. -/
theorem get_score_precedence (dice : List Int) (v : Int) :
    (is_two_triplets dice = true → get_score dice = some 2500) ∧
    (is_two_triplets dice = false → is_three_pair dice = true →
      get_score dice = some 1500) ∧
    (is_two_triplets dice = false → is_three_pair dice = false →
      is_straight dice = true → get_score dice = some 1500) ∧
    (is_two_triplets dice = false → is_three_pair dice = false →
      is_straight dice = false → is_of_a_kind 6 dice = true →
      get_score dice = some 5000) ∧
    (dice.length = 6 → count_dice dice v = 6 →
      is_of_a_kind 3 dice = true ∧ get_score dice = some 5000) := by
  refine ⟨?_, ?_, ?_, ?_, ?_⟩
  · intro htt
    have httA : is_two_tripletsAux (mapKeys dice) dice = true := htt
    unfold get_score get_scoreAux
    simp [httA]
  · intro htt htp
    have httA : is_two_tripletsAux (mapKeys dice) dice = false := htt
    have htpA : is_three_pairAux (mapKeys dice) dice = true := htp
    unfold get_score get_scoreAux
    simp [httA, htpA]
  · intro htt htp hst
    have httA : is_two_tripletsAux (mapKeys dice) dice = false := htt
    have htpA : is_three_pairAux (mapKeys dice) dice = false := htp
    unfold get_score get_scoreAux
    simp [httA, htpA, hst]
  · intro htt htp hst h6
    have httA : is_two_tripletsAux (mapKeys dice) dice = false := htt
    have htpA : is_three_pairAux (mapKeys dice) dice = false := htp
    have h6A : is_of_a_kindAux (mapKeys dice) 6 dice = true := h6
    unfold get_score get_scoreAux
    simp [httA, htpA, hst, h6A]
  · intro hlen hcv
    have h1 : List.count v dice = dice.length := by rw [hlen]; exact hcv
    have hall : ∀ b ∈ dice, v = b := List.count_eq_length.mp h1
    have hvd : v ∈ dice :=
      List.count_pos_iff.mp (by rw [hlen] at h1; omega)
    have hkeys : mapKeys dice = [v] :=
      nodup_all_eq (List.nodup_dedup dice)
        (fun w hw => (hall w (List.mem_dedup.mp hw)).symm)
        (by rw [mapKeys, List.mem_dedup]; exact hvd)
    have hcnt : count_dice dice v = 6 := hcv
    constructor
    · rw [is_of_a_kind, hkeys]
      simp [is_of_a_kindAux]
      omega
    · have htt : is_two_tripletsAux (mapKeys dice) dice = false := by
        rw [hkeys]
        simp [is_two_tripletsAux, List.countP_singleton, hcnt]
      have htp : is_three_pairAux (mapKeys dice) dice = false := by
        rw [hkeys]
        simp [is_three_pairAux, List.countP_singleton, hcnt]
      have hst : is_straight dice = false := by
        by_contra hcst
        rw [Bool.not_eq_false, is_straight] at hcst
        simp only [List.all_eq_true] at hcst
        have hm1 : (1 : Int) ∈ dice := by
          have := hcst 1 (by simp)
          simpa [List.contains, List.elem_eq_mem] using this
        have hm2 : (2 : Int) ∈ dice := by
          have := hcst 2 (by simp)
          simpa [List.contains, List.elem_eq_mem] using this
        have e1 : v = 1 := hall 1 hm1
        have e2 : v = 2 := hall 2 hm2
        omega
      have h6 : is_of_a_kindAux (mapKeys dice) 6 dice = true := by
        rw [hkeys]
        simp [is_of_a_kindAux]
        omega
      unfold get_score get_scoreAux
      simp [htt, htp, hst, h6]

/-- Witness for C2: the two-triplet fixture scores 2500 via the first
conjunct, and the all-fours set scores 5000 via the last conjunct. -/
theorem get_score_precedence_witness :
    get_score [1, 1, 1, 2, 2, 2] = some 2500 ∧
    (is_of_a_kind 3 [4, 4, 4, 4, 4, 4] = true ∧
      get_score [4, 4, 4, 4, 4, 4] = some 5000) :=
  ⟨(get_score_precedence [1, 1, 1, 2, 2, 2] 1).1 (by decide),
   (get_score_precedence [4, 4, 4, 4, 4, 4] 4).2.2.2.2 (by decide) (by decide)⟩

/-- `is_straight` only depends on membership, hence is invariant under
permutations of the dice. -/
theorem is_straight_perm {dice1 dice2 : List Int} (h : dice1 ~ dice2) :
    is_straight dice1 = is_straight dice2 := by
  have key : ∀ a b : Bool, (a = true ↔ b = true) → a = b := by decide
  apply key
  rw [is_straight, is_straight]
  simp only [List.all_eq_true, List.contains, List.elem_eq_mem,
    decide_eq_true_eq]
  constructor
  · intro hc i hi
    exact h.mem_iff.mp (hc i hi)
  · intro hc i hi
    exact h.mem_iff.mpr (hc i hi)

/-- `get_scoreAux` depends on the dice themselves only through their count
function and `is_straight`. -/
theorem get_scoreAux_congr (ktt ktp k6 k5 k4 k3 kk ksl : List Int)
    {dice1 dice2 : List Int} (hc : count_dice dice1 = count_dice dice2)
    (hs : is_straight dice1 = is_straight dice2) :
    get_scoreAux ktt ktp k6 k5 k4 k3 kk ksl dice1 =
      get_scoreAux ktt ktp k6 k5 k4 k3 kk ksl dice2 := by
  simp only [get_scoreAux, is_two_tripletsAux, is_three_pairAux,
    is_of_a_kindAux, keep_repeatsAux, strip_repeatsAux, hc, hs]

/-- For dice sets of length at most 6, `get_scoreAux` computes the
canonical `get_score` under every iteration order of the seven count maps
involved. -/
theorem get_scoreAux_orders {dice : List Int} (hlen : dice.length ≤ 6)
    {ktt ktp k6 k5 k4 k3 kk ksl : List Int}
    (h1 : ktt ~ mapKeys dice) (h2 : ktp ~ mapKeys dice)
    (h3 : k6 ~ mapKeys dice) (h4 : k5 ~ mapKeys dice)
    (h5 : k4 ~ mapKeys dice) (h6 : k3 ~ mapKeys dice)
    (h7 : kk ~ mapKeys dice) (h8 : ksl ~ mapKeys dice) :
    get_scoreAux ktt ktp k6 k5 k4 k3 kk ksl dice = get_score dice := by
  have ett := @is_two_tripletsAux_perm _ _ dice h1
  have etp := @is_three_pairAux_perm _ _ dice h2
  have e6 := @is_of_a_kindAux_perm 6 _ _ dice h3
  have e5 := @is_of_a_kindAux_perm 5 _ _ dice h4
  have e4 := @is_of_a_kindAux_perm 4 _ _ dice h5
  have e3 := @is_of_a_kindAux_perm 3 _ _ dice h6
  have esl : score_ones_and_fives (strip_repeatsAux ksl dice) =
      score_ones_and_fives (strip_repeatsAux (mapKeys dice) dice) := by
    rw [score_ones_and_fives_eq, score_ones_and_fives_eq]
    exact ((strip_repeatsAux_perm dice h8).map die_value_score).sum_eq
  rw [get_score]
  unfold get_scoreAux
  rw [ett, etp, e6, e5, e4, e3, esl]
  by_cases hb3 : is_of_a_kindAux (mapKeys dice) 3 dice = true
  · by_cases hbtt : is_two_tripletsAux (mapKeys dice) dice = true
    · simp [hbtt]
    · rw [Bool.not_eq_true] at hbtt
      obtain ⟨v, hvks, hc⟩ := is_of_a_kindAux_eq_true.mp hb3
      have huniq : ∀ w, 3 ≤ count_dice dice w → w = v :=
        fun w hw => triple_value_unique hlen hbtt hw hc
      have ek : keep_repeatsAux kk dice =
          keep_repeatsAux (mapKeys dice) dice := by
        rw [keep_repeatsAux_eq_replicate
            (h7.nodup_iff.mpr (List.nodup_dedup dice))
            (h7.mem_iff.mpr hvks) hc (fun w _ hw => huniq w hw),
          keep_repeatsAux_eq_replicate
            (show (mapKeys dice).Nodup from List.nodup_dedup dice) hvks hc
            (fun w _ hw => huniq w hw)]
      rw [ek]
  · rw [Bool.not_eq_true] at hb3
    simp [hb3]

/-- Claim C9: for every dice set of length at most 6 with die values in
1..=6, `get_score` is deterministic — its value does not depend on the
iteration orders of the seven hash maps it builds, and any permutation of
the dice gets the same score — and it returns a non-negative value. -/
theorem get_score_deterministic_nonneg
    (dice dice2 ktt ktp k6 k5 k4 k3 kk ksl : List Int)
    (hlen : dice.length ≤ 6) (hdom : ∀ d ∈ dice, 1 ≤ d ∧ d ≤ 6) :
    (ktt ~ mapKeys dice → ktp ~ mapKeys dice → k6 ~ mapKeys dice →
      k5 ~ mapKeys dice → k4 ~ mapKeys dice → k3 ~ mapKeys dice →
      kk ~ mapKeys dice → ksl ~ mapKeys dice →
      get_scoreAux ktt ktp k6 k5 k4 k3 kk ksl dice = get_score dice) ∧
    (dice ~ dice2 → get_score dice = get_score dice2) ∧
    (∃ n, get_score dice = some n ∧ 0 ≤ n) := by
  refine ⟨fun h1 h2 h3 h4 h5 h6 h7 h8 =>
    get_scoreAux_orders hlen h1 h2 h3 h4 h5 h6 h7 h8, ?_, ?_⟩
  · intro hp
    have hc : count_dice dice = count_dice dice2 :=
      funext fun u => hp.count_eq u
    have hs : is_straight dice = is_straight dice2 := is_straight_perm hp
    have hk : mapKeys dice2 ~ mapKeys dice := (hp.dedup).symm
    have e1 : get_score dice2 =
        get_scoreAux (mapKeys dice2) (mapKeys dice2) (mapKeys dice2)
          (mapKeys dice2) (mapKeys dice2) (mapKeys dice2) (mapKeys dice2)
          (mapKeys dice2) dice2 := rfl
    have e2 : get_scoreAux (mapKeys dice2) (mapKeys dice2) (mapKeys dice2)
        (mapKeys dice2) (mapKeys dice2) (mapKeys dice2) (mapKeys dice2)
        (mapKeys dice2) dice2 =
        get_scoreAux (mapKeys dice2) (mapKeys dice2) (mapKeys dice2)
          (mapKeys dice2) (mapKeys dice2) (mapKeys dice2) (mapKeys dice2)
          (mapKeys dice2) dice :=
      get_scoreAux_congr _ _ _ _ _ _ _ _ hc.symm hs.symm
    have e3 : get_scoreAux (mapKeys dice2) (mapKeys dice2) (mapKeys dice2)
        (mapKeys dice2) (mapKeys dice2) (mapKeys dice2) (mapKeys dice2)
        (mapKeys dice2) dice = get_score dice :=
      get_scoreAux_orders hlen hk hk hk hk hk hk hk hk
    exact (e1.trans (e2.trans e3)).symm
  · by_cases btt : is_two_tripletsAux (mapKeys dice) dice = true
    · exact ⟨2500, by simp [get_score, get_scoreAux, btt], by norm_num⟩
    · rw [Bool.not_eq_true] at btt
      by_cases btp : is_three_pairAux (mapKeys dice) dice = true
      · exact ⟨1500, by simp [get_score, get_scoreAux, btt, btp], by norm_num⟩
      · rw [Bool.not_eq_true] at btp
        by_cases bst : is_straight dice = true
        · exact ⟨1500, by simp [get_score, get_scoreAux, btt, btp, bst],
            by norm_num⟩
        · rw [Bool.not_eq_true] at bst
          by_cases b6 : is_of_a_kindAux (mapKeys dice) 6 dice = true
          · exact ⟨5000,
              by simp [get_score, get_scoreAux, btt, btp, bst, b6],
              by norm_num⟩
          · rw [Bool.not_eq_true] at b6
            have hl := score_ones_and_fives_nonneg
              (strip_repeatsAux (mapKeys dice) dice)
            by_cases b5 : is_of_a_kindAux (mapKeys dice) 5 dice = true
            · refine ⟨3000 + score_ones_and_fives
                  (strip_repeatsAux (mapKeys dice) dice), ?_, by omega⟩
              simp [get_score, get_scoreAux, btt, btp, bst, b6, b5]
            · rw [Bool.not_eq_true] at b5
              by_cases b4 : is_of_a_kindAux (mapKeys dice) 4 dice = true
              · refine ⟨2000 + score_ones_and_fives
                    (strip_repeatsAux (mapKeys dice) dice), ?_, by omega⟩
                simp [get_score, get_scoreAux, btt, btp, bst, b6, b5, b4]
              · rw [Bool.not_eq_true] at b4
                by_cases b3 : is_of_a_kindAux (mapKeys dice) 3 dice = true
                · obtain ⟨v, hvks, hc⟩ := is_of_a_kindAux_eq_true.mp b3
                  have huniq : ∀ w, 3 ≤ count_dice dice w → w = v :=
                    fun w hw => triple_value_unique hlen btt hw hc
                  have hkeep : keep_repeatsAux (mapKeys dice) dice =
                      List.replicate (count_dice dice v) v :=
                    keep_repeats_replicate_of_unique hc huniq
                  obtain ⟨n, hn⟩ : ∃ n, count_dice dice v = n + 1 :=
                    ⟨count_dice dice v - 1, by omega⟩
                  have hvdice : v ∈ dice := List.count_pos_iff.mp
                    (Nat.lt_of_lt_of_le (by norm_num) hc)
                  obtain ⟨hv1, hv6⟩ := hdom v hvdice
                  refine ⟨(if v = 1 then 1000 else v * 100) +
                      score_ones_and_fives
                        (strip_repeatsAux (mapKeys dice) dice), ?_, ?_⟩
                  · rw [get_score]
                    unfold get_scoreAux
                    rw [hkeep, hn, List.replicate_succ]
                    simp [btt, btp, bst, b6, b5, b4, b3, beq_iff_eq]
                  · by_cases hv : v = 1
                    · rw [if_pos hv]; omega
                    · rw [if_neg hv]; omega
                · rw [Bool.not_eq_true] at b3
                  refine ⟨0 + score_ones_and_fives
                      (strip_repeatsAux (mapKeys dice) dice), ?_, by omega⟩
                  simp [get_score, get_scoreAux, btt, btp, bst, b6, b5, b4, b3]

/-- Witness for C9 at the concrete input `[2, 2, 2, 1, 5]`, a reversed key
iteration order, and the rotated permutation `[5, 1, 2, 2, 2]`. -/
theorem get_score_deterministic_nonneg_witness :
    get_scoreAux ((mapKeys [2, 2, 2, 1, 5]).reverse)
      ((mapKeys [2, 2, 2, 1, 5]).reverse) ((mapKeys [2, 2, 2, 1, 5]).reverse)
      ((mapKeys [2, 2, 2, 1, 5]).reverse) ((mapKeys [2, 2, 2, 1, 5]).reverse)
      ((mapKeys [2, 2, 2, 1, 5]).reverse) ((mapKeys [2, 2, 2, 1, 5]).reverse)
      ((mapKeys [2, 2, 2, 1, 5]).reverse) [2, 2, 2, 1, 5] =
      get_score [2, 2, 2, 1, 5] ∧
    get_score [2, 2, 2, 1, 5] = get_score [5, 1, 2, 2, 2] ∧
    (∃ n, get_score [2, 2, 2, 1, 5] = some n ∧ 0 ≤ n) :=
  ⟨(get_score_deterministic_nonneg [2, 2, 2, 1, 5] [5, 1, 2, 2, 2]
      ((mapKeys [2, 2, 2, 1, 5]).reverse) ((mapKeys [2, 2, 2, 1, 5]).reverse)
      ((mapKeys [2, 2, 2, 1, 5]).reverse) ((mapKeys [2, 2, 2, 1, 5]).reverse)
      ((mapKeys [2, 2, 2, 1, 5]).reverse) ((mapKeys [2, 2, 2, 1, 5]).reverse)
      ((mapKeys [2, 2, 2, 1, 5]).reverse) ((mapKeys [2, 2, 2, 1, 5]).reverse)
      (by decide) (by decide)).1 (by decide) (by decide) (by decide)
      (by decide) (by decide) (by decide) (by decide) (by decide),
   (get_score_deterministic_nonneg [2, 2, 2, 1, 5] [5, 1, 2, 2, 2]
      [] [] [] [] [] [] [] [] (by decide) (by decide)).2.1 (by decide),
   (get_score_deterministic_nonneg [2, 2, 2, 1, 5] [5, 1, 2, 2, 2]
      [] [] [] [] [] [] [] [] (by decide) (by decide)).2.2⟩

end Farkle
